import Mathlib

/-!
Verification of the operator layer of the MatrixSlow reverse-mode
autodiff engine (`matrixslow/ops/ops.py`).

The Python code works on dense `np.matrix` values.  We embed a matrix as a
shape `(rows, cols)` together with a total entry function; entries at
indices outside the shape are irrelevant junk that no operation reads.
Machine floating-point numbers are modelled as exact numbers in a suitable
ordered field (`ℝ` for the transcendental operators, any commutative ring
for the linear-algebra ones, `ℤ`/`ℚ` for concrete evaluations).
Python exceptions are modelled with `Except PyErr`.
-/

/-- Dense matrix in the style of `np.matrix`: a shape plus a total entry
function.  Only entries with `i < rows` and `j < cols` are meaningful. -/
structure NpMat (α : Type) where
  rows : ℕ
  cols : ℕ
  entry : ℕ → ℕ → α

/-- Modelled from the spec: the external `Node` abstraction (in
`matrixslow/core`, not part of the sources here) provides `shape()` as the
shape of the node's current value and `dimension()` as rows×cols of the
value.  A node's shape and dimension are therefore read off its value. -/
def NpMat.dimension {α : Type} (M : NpMat α) : ℕ := M.rows * M.cols

/-- np.zeros: matrix of the given shape with every entry 0. -/
def npZeros (α : Type) [Zero α] (r c : ℕ) : NpMat α :=
  ⟨r, c, fun _ _ => 0⟩

/-- np.eye: identity matrix of size d × d. -/
def npEye (α : Type) [Zero α] [One α] (d : ℕ) : NpMat α :=
  ⟨d, d, fun i j => if i = j then 1 else 0⟩

/-- Matrix transpose (`.T`). -/
def NpMat.T {α : Type} (M : NpMat α) : NpMat α :=
  ⟨M.cols, M.rows, fun i j => M.entry j i⟩

/-- Matrix product of `np.matrix` values (the `*` operator). -/
def npMul {α : Type} [AddCommMonoid α] [Mul α] (A B : NpMat α) : NpMat α :=
  ⟨A.rows, B.cols, fun i j =>
    ((List.range A.cols).map (fun l => A.entry i l * B.entry l j)).sum⟩

/-- Entrywise sum used to model the in-place `+=` of same-shaped
`np.matrix` values; the result keeps the left operand's shape. -/
def npAdd {α : Type} [Add α] (A B : NpMat α) : NpMat α :=
  ⟨A.rows, A.cols, fun i j => A.entry i j + B.entry i j⟩

/-- np.multiply: elementwise (Hadamard) product. -/
def npHadamard {α : Type} [Mul α] (A B : NpMat α) : NpMat α :=
  ⟨A.rows, A.cols, fun i j => A.entry i j * B.entry i j⟩

/-- Broadcast `1 - M` over every entry. -/
def npOneSub {α : Type} [One α] [Sub α] (M : NpMat α) : NpMat α :=
  ⟨M.rows, M.cols, fun i j => 1 - M.entry i j⟩

/-- np.sum over all entries of the matrix (row-major iteration; the order
is irrelevant for a commutative sum). -/
def NpMat.sumAll {α : Type} [AddCommMonoid α] (M : NpMat α) : α :=
  ((List.range M.rows).map (fun i =>
    ((List.range M.cols).map (fun j => M.entry i j)).sum)).sum

/-- The `.A1` view of an `np.matrix`: its entries flattened into a
one-dimensional array in numpy's default row-major (C) order. -/
def npA1 {α : Type} (M : NpMat α) : ℕ → α :=
  fun p => M.entry (p / M.cols) (p % M.cols)

/-- np.diag of a one-dimensional array of length d: the d × d matrix with
that array on the diagonal and zeros elsewhere. -/
def npDiag {α : Type} [Zero α] (d : ℕ) (v : ℕ → α) : NpMat α :=
  ⟨d, d, fun i j => if i = j then v i else 0⟩

/-- Row-major (numpy C-order) vectorization of a matrix: position
`p = i * cols + j` holds entry `(i, j)`. -/
def vecRM {α : Type} (M : NpMat α) : ℕ → α :=
  fun p => M.entry (p / M.cols) (p % M.cols)

/-- Column-major (Fortran-order) vectorization of a matrix: position
`p = j * rows + i` holds entry `(i, j)`. -/
def vecCM {α : Type} (M : NpMat α) : ℕ → α :=
  fun p => M.entry (p % M.rows) (p / M.rows)

/-- Action of a Jacobian matrix on a flattened perturbation vector:
ordinary matrix–vector product, summing over the Jacobian's columns. -/
def NpMat.matvec {α : Type} [AddCommMonoid α] [Mul α] (M : NpMat α) (v : ℕ → α) : ℕ → α :=
  fun x => ((List.range M.cols).map (fun y => M.entry x y * v y)).sum

/-- Python exceptions that the embedded code can raise. -/
inductive PyErr where
  | assertionError
  | zeroDivisionError
  | typeError
  | indexError
  | notImplementedError
deriving DecidableEq

/-- One iteration of the loop in `fill_diagonal`: the slice assignment
`to_be_filled[i*r:(i+1)*r, i*c:(i+1)*c] = filler`. -/
def fillOne {α : Type} (t f : NpMat α) (i : ℕ) : NpMat α :=
  ⟨t.rows, t.cols, fun x y =>
    if i * f.rows ≤ x ∧ x < (i + 1) * f.rows ∧ i * f.cols ≤ y ∧ y < (i + 1) * f.cols
    then f.entry (x - i * f.rows) (y - i * f.cols)
    else t.entry x y⟩

/-- fill_diagonal from ops.py.  The Python assert compares the true
divisions `to_be_filled.shape[0] / filler.shape[0]` and
`to_be_filled.shape[1] / filler.shape[1]`; a zero filler dimension raises
ZeroDivisionError before the comparison.  Equality of the two exact
quotients with positive denominators is equivalent to the
cross-multiplication `R * c = C * r`, which we use so that the definition
evaluates by kernel reduction (see `fill_diagonal_check_iff_ratio`);
`n = int(R / r)` is floor division for these non-negative sizes. -/
def fill_diagonal {α : Type} (t f : NpMat α) : Except PyErr (NpMat α) :=
  if f.rows = 0 ∨ f.cols = 0 then .error .zeroDivisionError
  else if t.rows * f.cols = t.cols * f.rows then
    .ok ((List.range (t.rows / f.rows)).foldl (fun acc i => fillOne acc f i) t)
  else .error .assertionError

/-- The cross-multiplied guard in `fill_diagonal` is exactly equality of
the two real quotients computed by the Python assert. -/
theorem fill_diagonal_check_iff_ratio (R r C c : ℕ) (hr : 0 < r) (hc : 0 < c) :
    R * c = C * r ↔ (R : ℚ) / (r : ℚ) = (C : ℚ) / (c : ℚ) := by
  rw [div_eq_div_iff (by exact_mod_cast hr.ne') (by exact_mod_cast hc.ne')]
  exact_mod_cast Iff.rfl

/-- Python runtime values that can appear as a component of the shape
tuple handed to `np.zeros`: either an integer, or some non-integer object
such as an unevaluated bound method. -/
inductive PyVal where
  | int : ℕ → PyVal
  | boundMethod : PyVal
deriving DecidableEq

/-- Modelled from the spec: the external `Node` interface exposes the
flattened size as a method `dimension()` (spec sections 3 and 6).  The
bare attribute access `self.dimension` — without the call parentheses —
therefore yields the bound-method object, not an integer. -/
def Node.dimensionAttr : PyVal := PyVal.boundMethod

/-- np.zeros applied to a dynamically-typed `(rows, cols)` shape tuple:
both components must be integers, otherwise numpy raises TypeError. -/
def np_zeros_dyn (α : Type) [Zero α] : PyVal → PyVal → Except PyErr (NpMat α)
  | PyVal.int r, PyVal.int c => .ok (npZeros α r c)
  | _, _ => .error .typeError

/-- Add.compute from ops.py: `self.value` starts as a zero matrix of the
first parent's shape (an empty parent list raises IndexError there), then
the loop adds every parent's value in place. -/
def Add.compute {α : Type} [AddCommMonoid α] (parents : List (NpMat α)) :
    Except PyErr (NpMat α) :=
  match parents with
  | [] => .error .indexError
  | p :: _ => .ok (parents.foldl npAdd (npZeros α p.rows p.cols))

/-- Add.get_jacobi from ops.py: `np.mat(np.eye(self.dimension()))`.  The
`parent` argument (a node reference, here its identity) is ignored by the
source. -/
def Add.get_jacobi (α : Type) [Zero α] [One α] (selfDimension : ℕ) (parent : ℕ) :
    NpMat α :=
  npEye α selfDimension

/-- MatMul.compute from ops.py: asserts exactly two parents with
conformant inner dimensions, then multiplies their values. -/
def MatMul.compute {α : Type} [AddCommMonoid α] [Mul α] (p0 p1 : NpMat α) :
    Except PyErr (NpMat α) :=
  if p0.cols = p1.rows then .ok (npMul p0 p1) else .error .assertionError

/-- The index array `np.arange(r*c).reshape((c, r)).T.ravel()` built by
MatMul.get_jacobi for a matrix of shape `(r, c)`: flat position
`p = b*c + a` is sent to `a*r + b`. -/
def npIndexSort (r c : ℕ) : ℕ → ℕ :=
  fun p => p % c * r + p / c

/-- Fancy indexing `M[row_sort, :][:, col_sort]` with index arrays of
lengths `nr` and `nc`. -/
def npReindex {α : Type} (M : NpMat α) (rs cs : ℕ → ℕ) (nr nc : ℕ) : NpMat α :=
  ⟨nr, nc, fun x y => M.entry (rs x) (cs y)⟩

/-- MatMul.get_jacobi from ops.py.  `p0`, `p1` are the two parents'
values, `selfValue` the node's computed value (supplying `self.shape()`
and `self.dimension()`), `parent` the queried parent's value (supplying
`parent.shape()` and `parent.dimension()`), and `parentIsFirst` the
outcome of the identity test `parent is self.parents[0]`. -/
def MatMul.get_jacobi {α : Type} [AddCommMonoid α] [Mul α]
    (p0 p1 selfValue : NpMat α) (parentIsFirst : Bool) (parent : NpMat α) :
    Except PyErr (NpMat α) :=
  let zeros := npZeros α selfValue.dimension parent.dimension
  if parentIsFirst then
    fill_diagonal zeros p1.T
  else
    match fill_diagonal zeros p0 with
    | .error e => .error e
    | .ok jacobi =>
        .ok (npReindex jacobi
          (npIndexSort selfValue.rows selfValue.cols)
          (npIndexSort parent.rows parent.cols)
          selfValue.dimension parent.dimension)

/-- The in-place clipping `a[a > 1e2] = 1e2`: entries strictly above the
threshold are overwritten with it. -/
def npClipAbove {α : Type} [LinearOrder α] (a : NpMat α) (t : α) : NpMat α :=
  ⟨a.rows, a.cols, fun i j => if t < a.entry i j then t else a.entry i j⟩

/-- Elementwise `np.power(np.e, a)` for an abstract exponential map
(instantiated with `Real.exp` in the theorems). -/
def npExpMap {α : Type} (expf : α → α) (a : NpMat α) : NpMat α :=
  ⟨a.rows, a.cols, fun i j => expf (a.entry i j)⟩

/-- SoftMax.softmax from ops.py.  The masked assignment `a[a > 1e2] = 1e2`
mutates the caller's array in place; the function then returns
`ep / np.sum(ep)` computed from the mutated array.  The first component of
the result is the final state of the argument buffer `a`, the second the
freshly allocated return value. -/
def SoftMax.softmax {α : Type} [LinearOrderedField α] (expf : α → α) (a : NpMat α) :
    NpMat α × NpMat α :=
  let a2 := npClipAbove a 100
  let ep := npExpMap expf a2
  (a2, ⟨ep.rows, ep.cols, fun i j => ep.entry i j / ep.sumAll⟩)

/-- SoftMax.compute from ops.py: `self.value = SoftMax.softmax(self.parents[0].value)`.
The body contains no raising operation, so it always succeeds; the first
component is the parent's value buffer after the call (mutated by the
in-place clip), the second the node's new value. -/
def SoftMax.compute {α : Type} [LinearOrderedField α] (expf : α → α)
    (parentValue : NpMat α) : Except PyErr (NpMat α × NpMat α) :=
  .ok (SoftMax.softmax expf parentValue)

/-- SoftMax.get_jacobi from ops.py: unconditionally raises
NotImplementedError. -/
def SoftMax.get_jacobi (α : Type) (parent : ℕ) : Except PyErr (NpMat α) :=
  .error .notImplementedError

/-- Step.compute from ops.py: `np.where(parent_value >= 0.0, 1.0, 0.0)`. -/
def Step.compute {α : Type} [LinearOrderedField α] (parentValue : NpMat α) : NpMat α :=
  ⟨parentValue.rows, parentValue.cols, fun i j =>
    if 0 ≤ parentValue.entry i j then 1 else 0⟩

/-- Step.get_jacobi from ops.py:
`np.mat(np.zeros((self.dimension, self.dimension)))`.  The source passes
the bare attribute `self.dimension` — the bound method, not the integer
`self.dimension()` — as both components of the shape tuple; the
`selfDimension` argument records the runtime value of that attribute. -/
def Step.get_jacobi (selfDimension : PyVal) (parent : ℕ) : Except PyErr (NpMat ℝ) :=
  np_zeros_dyn ℝ selfDimension selfDimension

/-- logistic.compute from ops.py:
`1.0 / (1.0 + np.power(np.e, np.where(-x > 1e2, 1e2, -x)))`. -/
def logistic.compute {α : Type} [LinearOrderedField α] (expf : α → α)
    (parentValue : NpMat α) : NpMat α :=
  ⟨parentValue.rows, parentValue.cols, fun i j =>
    1 / (1 + expf (if 100 < -parentValue.entry i j then 100 else -parentValue.entry i j))⟩

/-- logistic.get_jacobi from ops.py:
`np.diag(np.mat(np.multiply(self.value, 1 - self.value)).A1)`.  The
`parent` argument is ignored by the source. -/
def logistic.get_jacobi {α : Type} [Zero α] [One α] [Mul α] [Sub α]
    (selfValue : NpMat α) (parent : ℕ) : NpMat α :=
  npDiag selfValue.dimension (npA1 (npHadamard selfValue (npOneSub selfValue)))

/-- Result-status test: whether an embedded Python call returned normally. -/
def exceptSucceeds {α : Type} : Except PyErr α → Bool
  | .ok _ => true
  | .error _ => false

/-- Concrete 2 × 2 filler matrix of ones. -/
def f22 : NpMat ℤ := ⟨2, 2, fun _ _ => 1⟩

/-- Counterexample to C2: a (5,5) target with a (2,2) filler does NOT
fail.  The Python assert compares 5/2 with 5/2, which are equal, so the
precondition passes and two diagonal blocks are filled; integrality of the
ratio is never checked. -/
theorem fill_diagonal_55_22_succeeds :
    exceptSucceeds (fill_diagonal (npZeros ℤ 5 5) f22) = true := by rfl

/-- Amended C2: for a filler with positive dimensions, `fill_diagonal`
succeeds exactly when the two exact quotients R/r and C/c are equal —
whether or not they are integers — and raises AssertionError exactly when
they differ. -/
theorem fill_diagonal_fails_iff_ratio_ne {α : Type} (t f : NpMat α)
    (hr : 0 < f.rows) (hc : 0 < f.cols) :
    (((t.rows : ℚ) / (f.rows : ℚ) = (t.cols : ℚ) / (f.cols : ℚ)) →
      ∃ M, fill_diagonal t f = Except.ok M) ∧
    (((t.rows : ℚ) / (f.rows : ℚ) ≠ (t.cols : ℚ) / (f.cols : ℚ)) →
      fill_diagonal t f = Except.error PyErr.assertionError) := by
  have hz : ¬ (f.rows = 0 ∨ f.cols = 0) := by omega
  constructor
  · intro h
    unfold fill_diagonal
    rw [if_neg hz, if_pos ((fill_diagonal_check_iff_ratio _ _ _ _ hr hc).mpr h)]
    exact ⟨_, rfl⟩
  · intro h
    unfold fill_diagonal
    rw [if_neg hz, if_neg (fun hcross =>
      h ((fill_diagonal_check_iff_ratio _ _ _ _ hr hc).mp hcross))]

/-- Witness for `fill_diagonal_fails_iff_ratio_ne` at the (5,5)/(2,2)
boundary input. -/
theorem fill_diagonal_fails_iff_ratio_ne_witness :
    0 < f22.rows ∧ 0 < f22.cols ∧
    ((((npZeros ℤ 5 5).rows : ℚ) / (f22.rows : ℚ) =
        ((npZeros ℤ 5 5).cols : ℚ) / (f22.cols : ℚ) →
      ∃ M, fill_diagonal (npZeros ℤ 5 5) f22 = Except.ok M) ∧
    ((((npZeros ℤ 5 5).rows : ℚ) / (f22.rows : ℚ) ≠
        ((npZeros ℤ 5 5).cols : ℚ) / (f22.cols : ℚ)) →
      fill_diagonal (npZeros ℤ 5 5) f22 = Except.error PyErr.assertionError)) :=
  ⟨by decide, by decide,
    fill_diagonal_fails_iff_ratio_ne (npZeros ℤ 5 5) f22 (by decide) (by decide)⟩

/-- C3: Step.get_jacobi always raises TypeError, because the shape tuple
passed to np.zeros holds the bound method `self.dimension` instead of the
integer `self.dimension()`; no zero matrix is ever returned. -/
theorem Step_get_jacobi_raises_typeError :
    ∀ parent : ℕ, Step.get_jacobi Node.dimensionAttr parent
      = Except.error PyErr.typeError :=
  fun _ => rfl

/-- Concrete parent value for the SoftMax mutation scenario: a 1 × 1
matrix holding 200, which exceeds the clipping threshold 1e2. -/
def par200 : NpMat ℝ := ⟨1, 1, fun _ _ => 200⟩

/-- C4: SoftMax.compute mutates its parent's value.  The masked
assignment `a[a > 1e2] = 1e2` inside SoftMax.softmax runs directly on
`self.parents[0].value`; with entry 200 the parent's buffer afterwards
holds 100 ≠ 200. -/
theorem SoftMax_compute_mutates_parent :
    par200.entry 0 0 = 200 ∧
    SoftMax.compute Real.exp par200 = Except.ok (SoftMax.softmax Real.exp par200) ∧
    (SoftMax.softmax Real.exp par200).1.entry 0 0 = 100 ∧
    (100 : ℝ) ≠ 200 := by
  refine ⟨rfl, rfl, ?_, by norm_num⟩
  show (if (100 : ℝ) < 200 then (100 : ℝ) else 200) = 100
  norm_num

/-- C5: SoftMax.get_jacobi always signals NotImplementedError, and
SoftMax.compute never raises anything — it succeeds on every input. -/
theorem SoftMax_get_jacobi_unsupported :
    (∀ (α : Type) (parent : ℕ),
      SoftMax.get_jacobi α parent = Except.error PyErr.notImplementedError) ∧
    (∀ v : NpMat ℝ, ∃ r, SoftMax.compute Real.exp v = Except.ok r) :=
  ⟨fun _ _ => rfl, fun v => ⟨SoftMax.softmax Real.exp v, rfl⟩⟩

/-- C6: Add and logistic produce Jacobians with dimension(self) rows, but
Step.get_jacobi never returns a matrix at all — it raises TypeError on
every call because of the missing call parentheses on `self.dimension`. -/
theorem jacobi_dims_and_step_failure :
    (∀ (d q : ℕ), (Add.get_jacobi ℤ d q).rows = d ∧ (Add.get_jacobi ℤ d q).cols = d) ∧
    (∀ (v : NpMat ℝ) (q : ℕ), (logistic.get_jacobi v q).rows = v.dimension ∧
      (logistic.get_jacobi v q).cols = v.dimension) ∧
    (∀ q : ℕ, Step.get_jacobi Node.dimensionAttr q = Except.error PyErr.typeError) :=
  ⟨fun _ _ => ⟨rfl, rfl⟩, fun _ _ => ⟨rfl, rfl⟩, fun _ => rfl⟩

/-- The parent list of a two-parent Add node, identified by node ids. -/
def addNodeParents : List ℕ := [0, 1]

/-- Counterexample to C7: querying Add.get_jacobi with node 2 — not among
the node's parents [0, 1] — silently returns the identity matrix, the
very behaviour the claim rules out. -/
theorem Add_get_jacobi_nonparent_identity :
    (2 : ℕ) ∉ addNodeParents ∧ Add.get_jacobi ℤ 1 2 = npEye ℤ 1 :=
  ⟨by decide, rfl⟩

/-- Amended C7: no operator validates the parent argument.  Add.get_jacobi
returns the identity matrix of size dimension(self) for every node
whatsoever, parent or not, and logistic.get_jacobi likewise ignores which
node is passed. -/
theorem get_jacobi_no_parent_validation :
    (∀ (d q : ℕ), Add.get_jacobi ℤ d q = npEye ℤ d) ∧
    (∀ (v : NpMat ℝ) (q q' : ℕ), logistic.get_jacobi v q = logistic.get_jacobi v q') :=
  ⟨fun _ _ => rfl, fun _ _ _ => rfl⟩

/-- C9: logistic.get_jacobi is the dense dimension × dimension diagonal
matrix whose i-th diagonal entry is the i-th flattened value times one
minus that value, all off-diagonal entries being zero. -/
theorem logistic_get_jacobi_diag (v : NpMat ℝ) (parent i j : ℕ) :
    (logistic.get_jacobi v parent).rows = v.dimension ∧
    (logistic.get_jacobi v parent).cols = v.dimension ∧
    (logistic.get_jacobi v parent).entry i j
      = if i = j then npA1 v i * (1 - npA1 v i) else 0 := by
  refine ⟨rfl, rfl, ?_⟩
  simp [logistic.get_jacobi, npDiag, npA1, npHadamard, npOneSub]

/-- Folding the in-place `+=` over a parent list keeps the accumulator's
shape (numpy in-place addition writes into the left operand). -/
theorem foldl_npAdd_shape {α : Type} [Add α] (l : List (NpMat α)) (acc : NpMat α) :
    (l.foldl npAdd acc).rows = acc.rows ∧ (l.foldl npAdd acc).cols = acc.cols := by
  induction l generalizing acc with
  | nil => exact ⟨rfl, rfl⟩
  | cons q l ih => simpa using ih (npAdd acc q)

/-- Folding the in-place `+=` over a parent list accumulates the entrywise
sum of all parents on top of the accumulator. -/
theorem foldl_npAdd_entry {α : Type} [AddCommMonoid α] (l : List (NpMat α))
    (acc : NpMat α) (x y : ℕ) :
    (l.foldl npAdd acc).entry x y
      = acc.entry x y + (l.map (fun q => q.entry x y)).sum := by
  induction l generalizing acc with
  | nil => simp
  | cons q l ih =>
      simp only [List.foldl_cons, List.map_cons, List.sum_cons]
      rw [ih]
      show acc.entry x y + q.entry x y + _ = _
      rw [add_assoc]

/-- C10: Add.compute on a non-empty list of same-shaped parents produces
the entrywise sum of all parents' values, and Add.get_jacobi is the
identity of size dimension(self) × dimension(self) no matter which parent
is queried. -/
theorem Add_compute_sum_and_jacobi_identity {α : Type} [AddCommMonoid α] [One α]
    (p : NpMat α) (rest : List (NpMat α))
    (hsh : ∀ q ∈ p :: rest, q.rows = p.rows ∧ q.cols = p.cols) :
    ∃ V, Add.compute (p :: rest) = Except.ok V ∧
      V.rows = p.rows ∧ V.cols = p.cols ∧
      (∀ x y, V.entry x y = ((p :: rest).map (fun q => q.entry x y)).sum) ∧
      (∀ par par' : ℕ,
        Add.get_jacobi α V.dimension par = npEye α V.dimension ∧
        Add.get_jacobi α V.dimension par = Add.get_jacobi α V.dimension par') := by
  refine ⟨(p :: rest).foldl npAdd (npZeros α p.rows p.cols), rfl,
    (foldl_npAdd_shape _ _).1, (foldl_npAdd_shape _ _).2, ?_, fun _ _ => ⟨rfl, rfl⟩⟩
  intro x y
  rw [foldl_npAdd_entry]
  show 0 + _ = _
  rw [zero_add]

/-- First concrete parent for the Add witness. -/
def addP1 : NpMat ℤ := ⟨1, 1, fun _ _ => 2⟩

/-- Second concrete parent for the Add witness. -/
def addP2 : NpMat ℤ := ⟨1, 1, fun _ _ => 3⟩

/-- Witness for `Add_compute_sum_and_jacobi_identity` on two concrete
1 × 1 parents. -/
theorem Add_compute_sum_and_jacobi_identity_witness :
    (∀ q ∈ addP1 :: [addP2], q.rows = addP1.rows ∧ q.cols = addP1.cols) ∧
    (∃ V, Add.compute (addP1 :: [addP2]) = Except.ok V ∧
      V.rows = addP1.rows ∧ V.cols = addP1.cols ∧
      (∀ x y, V.entry x y = ((addP1 :: [addP2]).map (fun q => q.entry x y)).sum) ∧
      (∀ par par' : ℕ,
        Add.get_jacobi ℤ V.dimension par = npEye ℤ V.dimension ∧
        Add.get_jacobi ℤ V.dimension par = Add.get_jacobi ℤ V.dimension par')) :=
  ⟨by decide, Add_compute_sum_and_jacobi_identity addP1 [addP2] (by decide)⟩

/-- Division by a common scalar distributes over a mapped list sum. -/
theorem sum_map_div {α : Type} [DivisionRing α] (l : List ℕ) (g : ℕ → α) (S : α) :
    (l.map (fun j => g j / S)).sum = (l.map g).sum / S := by
  induction l with
  | nil => simp
  | cons a l ih => simp [ih, add_div]

/-- Clipping from above at 100 written with `min`. -/
theorem clip_eq_min (x : ℝ) : (if (100 : ℝ) < x then (100 : ℝ) else x) = min x 100 := by
  rcases le_or_lt x 100 with h | h
  · rw [if_neg (not_lt.mpr h), min_eq_left h]
  · rw [if_pos h, min_eq_right h.le]

/-- Spec-side description of the softmax value (spec section 4.5): the
elementwise exponential of the input clipped above at 1e2, divided by the
sum of all those exponentials over the whole flattened value. -/
def softmaxSpecValue {α : Type} [LinearOrderedField α] (expf : α → α) (v : NpMat α) :
    NpMat α :=
  ⟨v.rows, v.cols, fun x y =>
    expf (min (v.entry x y) 100) /
      ((List.range v.rows).map (fun i =>
        ((List.range v.cols).map (fun j => expf (min (v.entry i j) 100))).sum)).sum⟩

/-- C8: SoftMax.compute succeeds on any input (entries above 1e2
included), its output entries are non-negative and sum to 1, and the
output is exactly the clipped-exponential normalization over the whole
flattened value described by the spec. -/
theorem SoftMax_compute_prob_dist (v : NpMat ℝ) (hr : 0 < v.rows) (hc : 0 < v.cols) :
    ∃ buf out, SoftMax.compute Real.exp v = Except.ok (buf, out) ∧
      out.rows = v.rows ∧ out.cols = v.cols ∧
      (∀ x y, 0 ≤ out.entry x y) ∧
      out.sumAll = 1 ∧
      (∀ x y, out.entry x y = (softmaxSpecValue Real.exp v).entry x y) := by
  refine ⟨(SoftMax.softmax Real.exp v).1, (SoftMax.softmax Real.exp v).2, rfl,
    rfl, rfl, ?_, ?_, ?_⟩
  all_goals
    have hS : 0 < (npExpMap Real.exp (npClipAbove v 100)).sumAll := by
      apply List.sum_pos
      · intro x hx
        obtain ⟨i, hi, rfl⟩ := List.mem_map.mp hx
        apply List.sum_pos
        · intro y hy
          obtain ⟨j, hj, rfl⟩ := List.mem_map.mp hy
          exact Real.exp_pos _
        · rw [ne_eq, List.map_eq_nil_iff, List.range_eq_nil]
          show ¬ v.cols = 0
          omega
      · rw [ne_eq, List.map_eq_nil_iff, List.range_eq_nil]
        show ¬ v.rows = 0
        omega
  · intro x y
    exact div_nonneg (Real.exp_pos _).le hS.le
  · show ((List.range v.rows).map (fun i =>
      ((List.range v.cols).map (fun j =>
        (npExpMap Real.exp (npClipAbove v 100)).entry i j
          / (npExpMap Real.exp (npClipAbove v 100)).sumAll)).sum)).sum = 1
    have hinner : ∀ i : ℕ,
        ((List.range v.cols).map (fun j =>
          (npExpMap Real.exp (npClipAbove v 100)).entry i j
            / (npExpMap Real.exp (npClipAbove v 100)).sumAll)).sum
        = ((List.range v.cols).map (fun j =>
            (npExpMap Real.exp (npClipAbove v 100)).entry i j)).sum
          / (npExpMap Real.exp (npClipAbove v 100)).sumAll :=
      fun i => sum_map_div _ _ _
    calc ((List.range v.rows).map (fun i =>
        ((List.range v.cols).map (fun j =>
          (npExpMap Real.exp (npClipAbove v 100)).entry i j
            / (npExpMap Real.exp (npClipAbove v 100)).sumAll)).sum)).sum
        = ((List.range v.rows).map (fun i =>
            ((List.range v.cols).map (fun j =>
              (npExpMap Real.exp (npClipAbove v 100)).entry i j)).sum
            / (npExpMap Real.exp (npClipAbove v 100)).sumAll)).sum := by
          exact congrArg List.sum (List.map_congr_left (fun i _ => hinner i))
      _ = (npExpMap Real.exp (npClipAbove v 100)).sumAll
            / (npExpMap Real.exp (npClipAbove v 100)).sumAll := sum_map_div _ _ _
      _ = 1 := div_self hS.ne'
  · intro x y
    show Real.exp (if (100 : ℝ) < v.entry x y then (100 : ℝ) else v.entry x y)
        / (npExpMap Real.exp (npClipAbove v 100)).sumAll
      = (softmaxSpecValue Real.exp v).entry x y
    simp only [softmaxSpecValue, NpMat.sumAll, npExpMap, npClipAbove, clip_eq_min]

/-- Witness for `SoftMax_compute_prob_dist` on the concrete 1 × 1 parent
holding 200 > 1e2. -/
theorem SoftMax_compute_prob_dist_witness :
    0 < par200.rows ∧ 0 < par200.cols ∧
    (∃ buf out, SoftMax.compute Real.exp par200 = Except.ok (buf, out) ∧
      out.rows = par200.rows ∧ out.cols = par200.cols ∧
      (∀ x y, 0 ≤ out.entry x y) ∧
      out.sumAll = 1 ∧
      (∀ x y, out.entry x y = (softmaxSpecValue Real.exp par200).entry x y)) :=
  ⟨by decide, by decide, SoftMax_compute_prob_dist par200 (by decide) (by decide)⟩

/-- A contiguous block of width r around multiples of r is exactly a
floor-division fiber. -/
theorem block_cond_iff (r n x : ℕ) (hr : 0 < r) :
    (n * r ≤ x ∧ x < (n + 1) * r) ↔ x / r = n := by
  constructor
  · rintro ⟨h1, h2⟩
    exact Nat.div_eq_of_lt_le h1 h2
  · rintro rfl
    refine ⟨Nat.div_mul_le_self x r, ?_⟩
    have h1 := Nat.div_add_mod x r
    have h2 := Nat.mod_lt x hr
    calc x = r * (x / r) + x % r := h1.symm
      _ < r * (x / r) + r := by omega
      _ = (x / r + 1) * r := by ring

/-- Entry-level description of the fill loop: after filling blocks
0, …, n-1, position (x, y) holds the filler entry when x and y fall in
the same diagonal block with index below n, and is untouched otherwise. -/
theorem fill_foldl_entry {α : Type} (t f : NpMat α) (hr : 0 < f.rows) (hc : 0 < f.cols)
    (n x y : ℕ) :
    ((List.range n).foldl (fun acc i => fillOne acc f i) t).entry x y
      = if x / f.rows = y / f.cols ∧ x / f.rows < n
        then f.entry (x % f.rows) (y % f.cols)
        else t.entry x y := by
  induction n with
  | zero => simp
  | succ n ih =>
      rw [List.range_succ, List.foldl_append, List.foldl_cons, List.foldl_nil]
      show (if n * f.rows ≤ x ∧ x < (n + 1) * f.rows ∧ n * f.cols ≤ y ∧ y < (n + 1) * f.cols
        then f.entry (x - n * f.rows) (y - n * f.cols)
        else ((List.range n).foldl (fun acc i => fillOne acc f i) t).entry x y) = _
      by_cases hblk : x / f.rows = n ∧ y / f.cols = n
      · obtain ⟨hbx, hby⟩ := hblk
        have hcx := (block_cond_iff f.rows n x hr).mpr hbx
        have hcy := (block_cond_iff f.cols n y hc).mpr hby
        rw [if_pos ⟨hcx.1, hcx.2, hcy.1, hcy.2⟩,
          if_pos ⟨hbx.trans hby.symm, by omega⟩]
        have ex : x % f.rows = x - n * f.rows := by
          have h9 := Nat.div_add_mod x f.rows
          rw [hbx, Nat.mul_comm f.rows n] at h9
          omega
        have ey : y % f.cols = y - n * f.cols := by
          have h9 := Nat.div_add_mod y f.cols
          rw [hby, Nat.mul_comm f.cols n] at h9
          omega
        rw [ex, ey]
      · have hnc : ¬ (n * f.rows ≤ x ∧ x < (n + 1) * f.rows ∧
            n * f.cols ≤ y ∧ y < (n + 1) * f.cols) := by
          rintro ⟨a, b, c, d⟩
          exact hblk ⟨(block_cond_iff f.rows n x hr).mp ⟨a, b⟩,
            (block_cond_iff f.cols n y hc).mp ⟨c, d⟩⟩
        rw [if_neg hnc, ih]
        by_cases h2 : x / f.rows = y / f.cols ∧ x / f.rows < n
        · rw [if_pos h2, if_pos ⟨h2.1, by omega⟩]
        · rw [if_neg h2]
          by_cases hEq : x / f.rows = y / f.cols
          · have hge : ¬ x / f.rows < n := fun hlt => h2 ⟨hEq, hlt⟩
            rw [if_neg ?_]
            rintro ⟨he, hl⟩
            have h3 : x / f.rows = n := by omega
            exact hblk ⟨h3, by rw [← he, h3]⟩
          · rw [if_neg (fun hcon => hEq hcon.1)]

/-- The fill loop never changes the target's shape. -/
theorem fill_foldl_shape {α : Type} (f : NpMat α) (l : List ℕ) (t : NpMat α) :
    ((l.foldl (fun acc i => fillOne acc f i) t)).rows = t.rows ∧
    ((l.foldl (fun acc i => fillOne acc f i) t)).cols = t.cols := by
  induction l generalizing t with
  | nil => exact ⟨rfl, rfl⟩
  | cons i l ih => simpa using ih (fillOne t f i)

/-- Shape-and-entry description of a successful `fill_diagonal` call on
explicitly given matrices. -/
theorem fill_diagonal_mk {α : Type} (R C r c : ℕ) (te fe : ℕ → ℕ → α)
    (hr : 0 < r) (hc : 0 < c) (hguard : R * c = C * r) :
    ∃ M, fill_diagonal ⟨R, C, te⟩ ⟨r, c, fe⟩ = Except.ok M ∧
      M.rows = R ∧ M.cols = C ∧
      ∀ x y, M.entry x y = if x / r = y / c ∧ x / r < R / r
        then fe (x % r) (y % c) else te x y := by
  refine ⟨(List.range (R / r)).foldl
    (fun acc i => fillOne acc (⟨r, c, fe⟩ : NpMat α) i) ⟨R, C, te⟩, ?_, ?_, ?_, ?_⟩
  · unfold fill_diagonal
    rw [if_neg (by simp; omega), if_pos hguard]
  · exact (fill_foldl_shape _ _ _).1
  · exact (fill_foldl_shape _ _ _).2
  · intro x y
    exact fill_foldl_entry (⟨R, C, te⟩ : NpMat α) (⟨r, c, fe⟩ : NpMat α) hr hc (R / r) x y

/-- Splitting a sum over `range (m * k)` into m blocks of length k. -/
theorem sum_range_mul_split {M : Type} [AddCommMonoid M] (m k : ℕ) (g : ℕ → M) :
    ((List.range (m * k)).map g).sum
      = ((List.range m).map (fun i =>
          ((List.range k).map (fun l => g (i * k + l))).sum)).sum := by
  induction m with
  | zero => simp
  | succ m ih =>
      have h1 : (m + 1) * k = m * k + k := by ring
      rw [h1, List.range_add, List.map_append, List.sum_append, ih,
        List.range_succ, List.map_append, List.sum_append, List.map_map,
        List.map_singleton, List.sum_singleton]
      rfl

/-- A mapped range sum all of whose terms vanish is zero. -/
theorem sum_range_all_zero {M : Type} [AddCommMonoid M] (n : ℕ) (g : ℕ → M)
    (h : ∀ i, i < n → g i = 0) : ((List.range n).map g).sum = 0 := by
  induction n with
  | zero => simp
  | succ n ih =>
      rw [List.range_succ, List.map_append, List.sum_append,
        ih (fun i hi => h i (by omega)), List.map_singleton, h n (by omega)]
      simp

/-- A mapped range sum with a single possibly non-zero term collapses to
that term. -/
theorem sum_range_single {M : Type} [AddCommMonoid M] (n i0 : ℕ) (g : ℕ → M)
    (hi : i0 < n) (h : ∀ i, i < n → i ≠ i0 → g i = 0) :
    ((List.range n).map g).sum = g i0 := by
  induction n with
  | zero => omega
  | succ n ih =>
      rw [List.range_succ, List.map_append, List.sum_append, List.map_singleton]
      by_cases hc : i0 = n
      · rw [sum_range_all_zero n g (fun i h1 => h i (by omega) (by omega)), hc]
        simp
      · rw [ih (by omega) (fun i h1 h2 => h i (by omega) h2), h n (by omega)
          (fun e => hc e.symm)]
        simp

/-- Action of the left-parent MatMul Jacobian: a matrix whose entries
follow the block-diagonal Bᵀ pattern sends the row-major flattening of a
perturbation dA to the row-major flattening of dA · B. -/
theorem jacobiA_action {α : Type} [CommRing α] (m k n : ℕ)
    (hk : 0 < k) (hn : 0 < n)
    (B dA : NpMat α) (hB2 : B.cols = n) (hdA2 : dA.cols = k)
    (JA : NpMat α) (hJc : JA.cols = m * k)
    (hJe : ∀ u w, JA.entry u w
      = if u / n = w / k ∧ u / n < m then B.entry (w % k) (u % n) else 0)
    (x : ℕ) (hx : x < m * n) :
    JA.matvec (vecRM dA) x = vecRM (npMul dA B) x := by
  have hxn : x / n < m := (Nat.div_lt_iff_lt_mul hn).mpr hx
  show ((List.range JA.cols).map (fun y => JA.entry x y * vecRM dA y)).sum = _
  rw [hJc, sum_range_mul_split m k]
  have hz : ∀ i, i < m → i ≠ x / n →
      ((List.range k).map (fun l => JA.entry x (i * k + l) * vecRM dA (i * k + l))).sum = 0 := by
    intro i hi hne
    apply sum_range_all_zero
    intro l hl
    have h1 : (i * k + l) / k = i := by
      rw [Nat.mul_comm, Nat.mul_add_div hk, Nat.div_eq_of_lt hl, Nat.add_zero]
    rw [hJe, h1, if_neg (fun hcon => hne hcon.1.symm), zero_mul]
  rw [sum_range_single m (x / n)
    (fun i => ((List.range k).map (fun l => JA.entry x (i * k + l) * vecRM dA (i * k + l))).sum)
    hxn hz]
  have hterm : ∀ l ∈ List.range k,
      JA.entry x (x / n * k + l) * vecRM dA (x / n * k + l)
        = dA.entry (x / n) l * B.entry l (x % n) := by
    intro l hl
    have hlk := List.mem_range.mp hl
    have hdiv : (x / n * k + l) / k = x / n := by
      rw [Nat.mul_comm, Nat.mul_add_div hk, Nat.div_eq_of_lt hlk, Nat.add_zero]
    have hmod : (x / n * k + l) % k = l := by
      rw [Nat.mul_add_mod', Nat.mod_eq_of_lt hlk]
    have hv : vecRM dA (x / n * k + l) = dA.entry (x / n) l := by
      simp only [vecRM]
      rw [hdA2, hdiv, hmod]
    rw [hJe, hdiv, hmod, if_pos ⟨rfl, hxn⟩, hv, mul_comm]
  rw [List.map_congr_left hterm]
  simp only [vecRM, npMul]
  rw [hB2, hdA2]

/-- Action of the right-parent MatMul Jacobi matrix after the permutation
step: its entries follow the permuted block pattern with filler A, and it
sends the row-major flattening of a perturbation dB to the row-major
flattening of A · dB. -/
theorem jacobiB_action {α : Type} [CommRing α] (m k n : ℕ)
    (hk : 0 < k) (hn : 0 < n)
    (A dB : NpMat α) (hA2 : A.cols = k) (hdB2 : dB.cols = n)
    (JB : NpMat α) (hJc : JB.cols = k * n)
    (x : ℕ) (hx : x < m * n)
    (hJe : ∀ w, w < k * n → JB.entry x w
      = if x % n = w % n then A.entry (x / n) (w / n) else 0) :
    JB.matvec (vecRM dB) x = vecRM (npMul A dB) x := by
  have hxm : x % n < n := Nat.mod_lt x hn
  show ((List.range JB.cols).map (fun y => JB.entry x y * vecRM dB y)).sum = _
  rw [hJc, sum_range_mul_split k n]
  have houter : ∀ l ∈ List.range k,
      ((List.range n).map (fun j => JB.entry x (l * n + j) * vecRM dB (l * n + j))).sum
        = A.entry (x / n) l * dB.entry l (x % n) := by
    intro l hl
    have hlk := List.mem_range.mp hl
    have hbound : ∀ j, j < n → l * n + j < k * n := by
      intro j hj
      have e1 : (l + 1) * n = l * n + n := by ring
      have e2 : (l + 1) * n ≤ k * n := Nat.mul_le_mul_right n (by omega)
      omega
    have hz : ∀ j, j < n → j ≠ x % n →
        JB.entry x (l * n + j) * vecRM dB (l * n + j) = 0 := by
      intro j hj hne
      have h1 : (l * n + j) % n = j := by
        rw [Nat.mul_add_mod', Nat.mod_eq_of_lt hj]
      rw [hJe _ (hbound j hj), h1, if_neg (fun hcon => hne hcon.symm), zero_mul]
    rw [sum_range_single n (x % n)
      (fun j => JB.entry x (l * n + j) * vecRM dB (l * n + j)) hxm hz]
    have h1 : (l * n + x % n) % n = x % n := by
      rw [Nat.mul_add_mod', Nat.mod_eq_of_lt hxm]
    have h2 : (l * n + x % n) / n = l := by
      rw [Nat.mul_comm, Nat.mul_add_div hn, Nat.div_eq_of_lt hxm, Nat.add_zero]
    have hv : vecRM dB (l * n + x % n) = dB.entry l (x % n) := by
      simp only [vecRM]
      rw [hdB2, h1, h2]
    rw [hJe _ (hbound _ hxm), h1, if_pos rfl, h2, hv]
  rw [List.map_congr_left houter]
  simp only [vecRM, npMul]
  rw [hdB2, hA2]

/-- Amended C1: for conformant A (m×k), B (k×n), MatMul.compute is the
standard product, MatMul.get_jacobi(A) has shape (mn, mk) and
MatMul.get_jacobi(B) has shape (mn, kn), and each is the true Jacobian of
the flattened product under ROW-MAJOR (numpy C-order) vectorization: the
action of get_jacobi(A) on the row-major flattening of dA yields the
row-major flattening of dA·B, and the action of get_jacobi(B) on the
row-major flattening of dB yields that of A·dB, squares or not. -/
theorem MatMul_get_jacobi_rowmajor {α : Type} [CommRing α] (m k n : ℕ)
    (hm : 0 < m) (hk : 0 < k) (hn : 0 < n)
    (A B dA dB : NpMat α)
    (hA1 : A.rows = m) (hA2 : A.cols = k) (hB1 : B.rows = k) (hB2 : B.cols = n)
    (hdA1 : dA.rows = m) (hdA2 : dA.cols = k)
    (hdB1 : dB.rows = k) (hdB2 : dB.cols = n) :
    MatMul.compute A B = Except.ok (npMul A B) ∧
    ∃ JA JB,
      MatMul.get_jacobi A B (npMul A B) true A = Except.ok JA ∧
      MatMul.get_jacobi A B (npMul A B) false B = Except.ok JB ∧
      JA.rows = m * n ∧ JA.cols = m * k ∧
      JB.rows = m * n ∧ JB.cols = k * n ∧
      (∀ x, x < m * n → JA.matvec (vecRM dA) x = vecRM (npMul dA B) x) ∧
      (∀ x, x < m * n → JB.matvec (vecRM dB) x = vecRM (npMul A dB) x) := by
  obtain ⟨ar, ac, ae⟩ := A
  obtain ⟨br, bc, be⟩ := B
  replace hA1 : ar = m := hA1
  replace hA2 : ac = k := hA2
  replace hB1 : br = k := hB1
  replace hB2 : bc = n := hB2
  subst ar
  subst ac
  subst br
  subst bc
  obtain ⟨JA, hJAeq, hJAr, hJAc, hJAe⟩ :=
    fill_diagonal_mk (α := α) (m * n) (m * k) n k (fun _ _ => 0) (fun i j => be j i)
      hn hk (by ring)
  obtain ⟨Jr, hJreq, hJrr, hJrc, hJre⟩ :=
    fill_diagonal_mk (α := α) (m * n) (k * n) m k (fun _ _ => 0) ae hm hk (by ring)
  have hdivA : m * n / n = m := Nat.mul_div_cancel m hn
  have hJAe' : ∀ u w, JA.entry u w
      = if u / n = w / k ∧ u / n < m then be (w % k) (u % n) else 0 := by
    intro u w
    rw [hJAe u w, hdivA]
  have hJBe : ∀ x, x < m * n → ∀ w, w < k * n →
      (npReindex Jr (npIndexSort m n) (npIndexSort k n) (m * n) (k * n)).entry x w
        = if x % n = w % n then ae (x / n) (w / n) else 0 := by
    intro x hx w hw
    show Jr.entry (x % n * m + x / n) (w % n * k + w / n) = _
    rw [hJre]
    have hxdm : x / n < m := (Nat.div_lt_iff_lt_mul hn).mpr hx
    have hwdk : w / n < k := (Nat.div_lt_iff_lt_mul hn).mpr hw
    have hu1 : (x % n * m + x / n) / m = x % n := by
      rw [Nat.mul_comm, Nat.mul_add_div hm, Nat.div_eq_of_lt hxdm, Nat.add_zero]
    have hu2 : (x % n * m + x / n) % m = x / n := by
      rw [Nat.mul_add_mod', Nat.mod_eq_of_lt hxdm]
    have hw1 : (w % n * k + w / n) / k = w % n := by
      rw [Nat.mul_comm, Nat.mul_add_div hk, Nat.div_eq_of_lt hwdk, Nat.add_zero]
    have hw2 : (w % n * k + w / n) % k = w / n := by
      rw [Nat.mul_add_mod', Nat.mod_eq_of_lt hwdk]
    have hnb : m * n / m = n := by
      rw [Nat.mul_comm]
      exact Nat.mul_div_cancel n hm
    rw [hu1, hu2, hw1, hw2, hnb]
    have hxm : x % n < n := Nat.mod_lt x hn
    by_cases hcnd : x % n = w % n
    · rw [if_pos ⟨hcnd, hxm⟩, if_pos hcnd]
    · rw [if_neg (fun hcon => hcnd hcon.1), if_neg hcnd]
  refine ⟨by simp [MatMul.compute],
    JA, npReindex Jr (npIndexSort m n) (npIndexSort k n) (m * n) (k * n),
    hJAeq, ?_, hJAr, hJAc, rfl, rfl, ?_, ?_⟩
  · show (match fill_diagonal (⟨m * n, k * n, fun _ _ => 0⟩ : NpMat α)
        (⟨m, k, ae⟩ : NpMat α) with
      | Except.error e => (Except.error e : Except PyErr (NpMat α))
      | Except.ok jacobi => Except.ok (npReindex jacobi
          (npIndexSort m n) (npIndexSort k n) (m * n) (k * n))) = _
    rw [hJreq]
  · intro x hx
    exact jacobiA_action m k n hk hn ⟨k, n, be⟩ dA rfl hdA2 JA hJAc hJAe' x hx
  · intro x hx
    exact jacobiB_action m k n hk hn ⟨m, k, ae⟩ dB rfl hdB2
      (npReindex Jr (npIndexSort m n) (npIndexSort k n) (m * n) (k * n)) rfl x hx
      (hJBe x hx)

/-- The left parent A = [[1,2],[3,4]] of the spec's end-to-end scenario. -/
def cexA : NpMat ℤ :=
  ⟨2, 2, fun i j => if i = 0 then if j = 0 then 1 else 2 else if j = 0 then 3 else 4⟩

/-- The right parent B = [[5,6],[7,8]] of the spec's end-to-end scenario. -/
def cexB : NpMat ℤ :=
  ⟨2, 2, fun i j => if i = 0 then if j = 0 then 5 else 6 else if j = 0 then 7 else 8⟩

/-- The perturbation dB = [[1,0],[0,0]] of the spec's end-to-end scenario. -/
def cexDB : NpMat ℤ := ⟨2, 2, fun i j => if i = 0 ∧ j = 0 then 1 else 0⟩

/-- Counterexample to C1 as stated: with A = [[1,2],[3,4]],
B = [[5,6],[7,8]] and dB = [[1,0],[0,0]], the action of get_jacobi(B) on
the COLUMN-MAJOR flattening of dB does not reproduce the column-major
flattening of A·dB — at position 1 the product gives 0 while
vec(A·dB) = [1,3,0,0] has 3.  (The identity holds in row-major order
instead; see MatMul_get_jacobi_rowmajor.) -/
theorem MatMul_get_jacobi_colmajor_counterexample :
    (MatMul.get_jacobi cexA cexB (npMul cexA cexB) false cexB).toOption.map
        (fun J => J.matvec (vecCM cexDB) 1)
      ≠ (some (vecCM (npMul cexA cexDB) 1) : Option ℤ) := by
  decide

/-- Concrete non-square left parent (1×2) for the row-major witness. -/
def wA : NpMat ℤ := ⟨1, 2, fun _ j => if j = 0 then 1 else 2⟩

/-- Concrete non-square right parent (2×1) for the row-major witness. -/
def wB : NpMat ℤ := ⟨2, 1, fun i _ => if i = 0 then 3 else 4⟩

/-- Concrete perturbation of the left parent (1×2). -/
def wdA : NpMat ℤ := ⟨1, 2, fun _ j => if j = 0 then 5 else 6⟩

/-- Concrete perturbation of the right parent (2×1). -/
def wdB : NpMat ℤ := ⟨2, 1, fun i _ => if i = 0 then 7 else 8⟩

/-- Witness for `MatMul_get_jacobi_rowmajor` at the non-square instance
m = 1, k = 2, n = 1. -/
theorem MatMul_get_jacobi_rowmajor_witness :
    ((0 : ℕ) < 1 ∧ (0 : ℕ) < 2 ∧ (0 : ℕ) < 1) ∧
    (wA.rows = 1 ∧ wA.cols = 2 ∧ wB.rows = 2 ∧ wB.cols = 1 ∧
     wdA.rows = 1 ∧ wdA.cols = 2 ∧ wdB.rows = 2 ∧ wdB.cols = 1) ∧
    (MatMul.compute wA wB = Except.ok (npMul wA wB) ∧
     ∃ JA JB,
       MatMul.get_jacobi wA wB (npMul wA wB) true wA = Except.ok JA ∧
       MatMul.get_jacobi wA wB (npMul wA wB) false wB = Except.ok JB ∧
       JA.rows = 1 * 1 ∧ JA.cols = 1 * 2 ∧
       JB.rows = 1 * 1 ∧ JB.cols = 2 * 1 ∧
       (∀ x, x < 1 * 1 → JA.matvec (vecRM wdA) x = vecRM (npMul wdA wB) x) ∧
       (∀ x, x < 1 * 1 → JB.matvec (vecRM wdB) x = vecRM (npMul wA wdB) x)) :=
  ⟨⟨by decide, by decide, by decide⟩, ⟨rfl, rfl, rfl, rfl, rfl, rfl, rfl, rfl⟩,
    MatMul_get_jacobi_rowmajor 1 2 1 (by decide) (by decide) (by decide)
      wA wB wdA wdB rfl rfl rfl rfl rfl rfl rfl rfl⟩
